import Mathlib

/-!
Verification development for the clDNN graph compiler core
(`src/include/program_impl.h`).

The graph is shallowly embedded: `program_node` carries the ordered
dependency list and the user list of one node (pointers become
`primitive_id`s), and the `nodes_map` of `program_impl` becomes an
association list from identifiers to nodes.  Member functions whose
bodies appear inline in the header (`get_node`, `add_connection`,
`remove_connection`, the primitive overload of `add_intermediate`) are
translated from that source.  Member functions that are only declared in
the header are modelled from the specification; each such definition
says so in its doc comment.
-/

set_option autoImplicit false

namespace cldnn

/-! ## Data model and operations -/

/-- Primitive identifiers (`primitive_id` is `std::string` in clDNN). -/
abbrev primitive_id := String

/-- One graph vertex: ordered dependency list, user list, and the flags
the claims need (`program_node` in the source; pointers to nodes become
identifiers). -/
structure program_node where
  dependencies : List primitive_id
  users : List primitive_id
  is_output : Bool
  is_input : Bool
deriving DecidableEq

/-- The `nodes_map` of `program_impl`: an association list from
identifier to node (`std::map<primitive_id, std::shared_ptr<program_node>>`). -/
abbrev Graph := List (primitive_id × program_node)

/-- Keys of the map. -/
def keys (g : Graph) : List primitive_id := g.map Prod.fst

/-- Lookup of a node by identifier (first entry wins, as in a map with
unique keys). -/
def find_node (g : Graph) (id : primitive_id) : Option program_node :=
  match g with
  | [] => none
  | e :: rest => if e.1 = id then some e.2 else find_node rest id

/-- In-place mutation of the node stored under `id` (a C++ method call
through a node reference becomes an update of the entry with that key). -/
def upd_node (g : Graph) (id : primitive_id) (f : program_node → program_node) : Graph :=
  g.map (fun e => if e.1 = id then (e.1, f e.2) else e)

/-- `program_impl::add_connection` (program_impl.h:175-179):
`prev.users.push_back(&next); next.dependencies.push_back(&prev);`. -/
def add_connection (g : Graph) (prev nxt : primitive_id) : Graph :=
  upd_node (upd_node g prev (fun n => { n with users := n.users ++ [nxt] })) nxt
    (fun n => { n with dependencies := n.dependencies ++ [prev] })

/-- `program_impl::remove_connection` (program_impl.h:181-185):
`prev.users.remove(&next)` (removes every occurrence) and the
erase/remove idiom on `next.dependencies` (also every occurrence). -/
def remove_connection (g : Graph) (prev nxt : primitive_id) : Graph :=
  upd_node (upd_node g prev (fun n => { n with users := n.users.filter (fun u => u ≠ nxt) })) nxt
    (fun n => { n with dependencies := n.dependencies.filter (fun d => d ≠ prev) })

/-- The message built by `program_impl::get_node` on a failed lookup
(program_impl.h:64).  The apostrophe is assembled from its code point. -/
def not_found_msg (id : primitive_id) : String :=
  "Program doesn" ++ String.singleton (Char.ofNat 39) ++ "t contain primtive node: " ++ id

/-- `program_impl::get_node` (program_impl.h:56-66): `nodes_map.at(id)`,
any exception rethrown as a `runtime_error` naming the missing node.  The
state is returned explicitly to record that the lookup never mutates the
map. -/
def get_node (g : Graph) (id : primitive_id) : Except String program_node × Graph :=
  match find_node g id with
  | some n => (Except.ok n, g)
  | none => (Except.error (not_found_msg id), g)

/-- The mirror invariant of §3: A lists B as a dependency iff B lists A
as a user, over all entries of the store. -/
abbrev mirror_inv (g : Graph) : Prop :=
  ∀ e1 ∈ g, ∀ e2 ∈ g, (e2.1 ∈ e1.2.dependencies ↔ e1.1 ∈ e2.2.users)

/-- Concrete input node used by the witnesses. -/
def naW : program_node := ⟨[], ["b"], false, true⟩

/-- Concrete output node used by the witnesses. -/
def nbW : program_node := ⟨["a"], [], true, false⟩

/-- A concrete two-node store used by the witnesses: an input node `a`
consumed by an output node `b`. -/
def gW : Graph := [("a", naW), ("b", nbW)]

/-- A concrete three-node store with a dangling node `c` (no users, not
marked output or input). -/
def gWd : Graph :=
  [("a", (⟨[], ["b", "c"], false, true⟩ : program_node)),
   ("b", (⟨["a"], [], true, false⟩ : program_node)),
   ("c", (⟨["a"], [], false, false⟩ : program_node))]

/-- Multiset form of the mirror invariant: the number of dependency
edges from A to B equals the number of user edges from B to A. -/
abbrev edge_count_inv (g : Graph) : Prop :=
  ∀ e1 ∈ g, ∀ e2 ∈ g, e1.2.dependencies.count e2.1 = e2.2.users.count e1.1

/-- Modelled from the spec: the body of `program_impl::add_intermediate`
(node overload) is not under src/ — program_impl.h:164-166 is only its
declaration and comment.  Spec §4.1: splices the node between `nxt` and
the dependency currently at position `prev_idx` of `nxt`'s dependency
list; `prev_idx` must be valid for `nxt`'s current dependency count (an
invalid edge index is a fatal structural error, §7, modelled as an
`Except.error` that leaves the store untouched); when `connect_old` is
true the old dependency is reconnected as a dependency of the inserted
node. -/
def add_intermediate (g : Graph) (node_id nxt : primitive_id) (prev_idx : Nat)
    (connect_old : Bool) : Except String Unit × Graph :=
  match find_node g nxt with
  | none => (Except.error (not_found_msg nxt), g)
  | some nn =>
    if h : prev_idx < nn.dependencies.length then
      let old := nn.dependencies.get ⟨prev_idx, h⟩
      let g1 := if connect_old then add_connection g old node_id else g
      let g2 := upd_node g1 old (fun n => { n with users := n.users.filter (fun u => u ≠ nxt) })
      let g3 := upd_node g2 nxt
        (fun n => { n with dependencies := n.dependencies.set prev_idx node_id })
      let g4 := upd_node g3 node_id (fun n => { n with users := n.users ++ [nxt] })
      (Except.ok (), g4)
    else (Except.error "Index out of range", g)

/-- A primitive descriptor; only its identifier matters to the store
registration the claims exercise. -/
structure primitive where
  id : primitive_id
deriving DecidableEq

/-- Modelled from the spec: the body of `program_impl::get_or_create` is
not under src/ — program_impl.h:160-162 is only its declaration and
comment.  Spec §4.1: returns the existing node for the primitive's
identifier when present, else creates one, registers it in the store and
returns it; registration only, no edges wired. -/
def get_or_create (g : Graph) (prim : primitive) : primitive_id × Graph :=
  match find_node g prim.id with
  | some _ => (prim.id, g)
  | none => (prim.id, g ++ [(prim.id, ⟨[], [], false, false⟩)])

/-- The primitive overload of `add_intermediate` (program_impl.h:168-173,
body in src): gets or creates the node for `prim` and inserts it via the
node overload, the `connect_int_node_with_old_dep` argument left at its
default `true`. -/
def add_intermediate_prim (g : Graph) (prim : primitive) (nxt : primitive_id)
    (prev_idx : Nat) : Except String Unit × Graph :=
  let r := get_or_create g prim
  add_intermediate r.2 r.1 nxt prev_idx true

/-- The composition described by the claim, written out from the spec's
words: first `get_or_create prim`, then the node overload of
`add_intermediate` on the resulting node with
`connect_int_node_with_old_dep` equal to `true`. -/
def add_intermediate_prim_spec (g : Graph) (prim : primitive) (nxt : primitive_id)
    (prev_idx : Nat) : Except String Unit × Graph :=
  add_intermediate (get_or_create g prim).2 (get_or_create g prim).1 nxt prev_idx true

/-- The per-entry effect of the splice performed by `extract_and_remove`
when removing node `id` whose single dependency is `d` and whose former
users are `us`: every dependency slot holding `id` now holds `d`, and
`d` additionally loses `id` from its user list and gains the former
users. -/
def splice_node (id d : primitive_id) (us : List primitive_id) (k : primitive_id)
    (v : program_node) : program_node :=
  let nd := { v with dependencies := v.dependencies.map (fun x => if x = id then d else x) }
  if k = d then { nd with users := nd.users.filter (fun u => u ≠ id) ++ us } else nd

/-- Modelled from the spec: the body of `program_impl::extract_and_remove`
is not under src/ — program_impl.h:200-203 is only its declaration and
contract comment.  Spec §4.1: removes a node that has exactly one
dependency and is not an output, splicing its single dependency directly
to its former users; fails (returns false) if the preconditions are
unmet.  The splice substitutes the dependency for the removed node in
every order-significant dependency slot, moves the former users onto the
dependency's user list, and erases the node from the store. -/
def extract_and_remove (g : Graph) (id : primitive_id) : Bool × Graph :=
  match find_node g id with
  | none => (false, g)
  | some n =>
    match n.dependencies, n.is_output with
    | [d], false =>
      let m := g.map (fun e => (e.1, splice_node id d n.users e.1 e.2))
      (true, m.filter (fun e => e.1 ≠ id))
    | _, _ => (false, g)

/-- Modelled from the spec: the body of `program_impl::remove_if_dangling`
is not under src/ — program_impl.h:197-198 is only its declaration and
comment.  Spec §4.1/§3: removes the node if it has no users and is not
marked output/input, returning whether removal occurred; removal first
detaches the node from its dependencies (removing the mirrored user
edges) and then erases it from the store (the `detach_whole_branch`
recursion is not exercised by the claim and is omitted). -/
def remove_if_dangling (g : Graph) (id : primitive_id) : Bool × Graph :=
  match find_node g id with
  | none => (false, g)
  | some n =>
    if n.users.isEmpty && !n.is_output && !n.is_input then
      let g1 := n.dependencies.foldl (fun gg d => remove_connection gg d id) g
      (true, g1.filter (fun e => e.1 ≠ id))
    else (false, g)

/-- The MemoryDependencyGraph, as a list of recorded conflict pairs. -/
abbrev MemDeps := List (primitive_id × primitive_id)

/-- `a` has a recorded conflict with `b`. -/
abbrev conflicts (m : MemDeps) (a b : primitive_id) : Prop := (a, b) ∈ m

/-- Position of a node in the processing order. -/
def order_pos (ord : List primitive_id) (a : primitive_id) : Nat := ord.indexOf a

/-- Live range of a node: from its own position (creation) to the
position of its last user (last use) in processing order. -/
def live_range (g : Graph) (ord : List primitive_id) (a : primitive_id) : Nat × Nat :=
  match find_node g a with
  | none => (order_pos ord a, order_pos ord a)
  | some n => (order_pos ord a, (n.users.map (order_pos ord)).foldl max (order_pos ord a))

/-- Interval overlap of two live ranges. -/
def ranges_overlap (r1 r2 : Nat × Nat) : Bool := r1.1 ≤ r2.2 && r2.1 ≤ r1.2

/-- All ordered pairs over a list of identifiers. -/
def all_pairs (l : List primitive_id) : List (primitive_id × primitive_id) :=
  l.flatMap (fun a => l.map (fun b => (a, b)))

/-- Modelled from the spec: the body of
`program_impl::basic_memory_dependencies` is not under src/ —
program_impl.h:151 is only its declaration.  Spec §4.4: two nodes
conflict if their live ranges (creation to last use in processing order)
overlap; the policy only adds conflict entries, and records each
conflict in both orientations. -/
def basic_memory_dependencies (g : Graph) (ord : List primitive_id) (m : MemDeps) : MemDeps :=
  m ++ (all_pairs (keys g)).filter
    (fun p => p.1 ≠ p.2 && ranges_overlap (live_range g ord p.1) (live_range g ord p.2))

/-- Modelled from the spec: the body of
`program_impl::skipped_branch_memory_dependencies` is not under src/ —
program_impl.h:152 is only its declaration.  Spec §4.4: nodes that were
conservatively reachable from a removed branch retain a conflict
marker; the markers computed before optimization enter as a parameter
and are recorded symmetrically (the policy only adds entries). -/
def skipped_branch_memory_dependencies (markers : List (primitive_id × primitive_id))
    (m : MemDeps) : MemDeps :=
  m ++ (markers ++ markers.map Prod.swap)

/-- Dependency-graph reachability with fuel: can `b` be reached from `a`
by following dependency edges. -/
def reaches (g : Graph) : Nat → primitive_id → primitive_id → Bool
  | 0, _, _ => false
  | fuel + 1, a, b =>
    match find_node g a with
    | none => false
    | some n => n.dependencies.contains b || n.dependencies.any (fun d => reaches g fuel d b)

/-- Modelled from the spec: the body of
`program_impl::oooq_memory_dependencies` is not under src/ —
program_impl.h:153 is only its declaration.  Spec §4.4: under an
out-of-order queue, any two distinct nodes with no ancestor/descendant
relationship in the dependency graph are treated as potentially
concurrent and therefore conflicting; only additions. -/
def oooq_memory_dependencies (g : Graph) (m : MemDeps) : MemDeps :=
  m ++ (all_pairs (keys g)).filter
    (fun p => p.1 ≠ p.2 && !reaches g g.length p.1 p.2 && !reaches g g.length p.2 p.1)

/-- Modelled from the spec: the body of
`program_impl::prepare_memory_dependencies` is not under src/ —
program_impl.h:150 is only its declaration.  It composes the three
policies in their declaration order (program_impl.h:151-153): basic,
skipped-branch, oooq. -/
def prepare_memory_dependencies (g : Graph) (ord : List primitive_id)
    (markers : List (primitive_id × primitive_id)) : MemDeps :=
  oooq_memory_dependencies g
    (skipped_branch_memory_dependencies markers
      (basic_memory_dependencies g ord []))

/-- A node is ready when each of its dependencies has been emitted. -/
def deps_satisfied (done : List primitive_id) (n : program_node) : Bool :=
  n.dependencies.all (fun d => done.contains d)

/-- The scheduling loop: repeatedly emit the first node (in declaration
order) whose dependencies are all emitted; fail when nodes remain but
none is ready. -/
def topo_sort_aux : Nat → Graph → List primitive_id → Option (List primitive_id)
  | _, [], acc => some acc.reverse
  | 0, _ :: _, _ => none
  | fuel + 1, e0 :: rest, acc =>
    match (e0 :: rest).find? (fun e => deps_satisfied acc e.2) with
    | none => none
    | some e => topo_sort_aux fuel ((e0 :: rest).filter (fun x => x.1 ≠ e.1)) (e.1 :: acc)

/-- Modelled from the spec: the body of
`program_impl::calc_processing_order` is not under src/ —
program_impl.h:115 is only its declaration.  Spec §4.2: produces a
linear order consistent with the dependency relation, ties broken by
original declaration order (the first ready node in declaration order
is emitted next), and must detect and fail on any cycle. -/
def calc_processing_order (g : Graph) : Option (List primitive_id) :=
  topo_sort_aux g.length g []

/-- `a` depends on `b`: `b` occurs in `a`'s dependency list. -/
def depends_on (g : Graph) (a b : primitive_id) : Prop :=
  ∃ n, find_node g a = some n ∧ b ∈ n.dependencies

/-- A dependency cycle: a nonempty chain of dependency edges from a
node back to itself. -/
def has_cycle (g : Graph) : Prop :=
  ∃ a, Relation.TransGen (depends_on g) a a

/-- Well-formedness of a store: unique keys and dependencies that stay
inside the store. -/
abbrev well_formed (g : Graph) : Prop :=
  (keys g).Nodup ∧ ∀ e ∈ g, ∀ d ∈ e.2.dependencies, d ∈ keys g

/-- The emitted prefix, most recent first: every emitted node's
dependencies were emitted before it. -/
def emitted_ok (g : Graph) : List primitive_id → Prop
  | [] => True
  | a :: rest =>
    (∀ n, find_node g a = some n → ∀ d ∈ n.dependencies, d ∈ rest) ∧ emitted_ok g rest

/-- `ord` is consistent with the dependency relation: wherever a node
appears, all of its dependencies appear earlier. -/
def respects_dependencies (g : Graph) (ord : List primitive_id) : Prop :=
  ∀ l1 a l2, ord = l1 ++ a :: l2 → ∀ n, find_node g a = some n →
    ∀ d ∈ n.dependencies, d ∈ l1

/-! ## Properties -/

theorem find_node_upd (g : Graph) (id x : primitive_id) (f : program_node → program_node) :
    find_node (upd_node g id f) x =
      if id = x then (find_node g id).map f else find_node g x := by
  induction g with
  | nil => by_cases h : id = x <;> simp [upd_node, find_node, h]
  | cons e rest ih =>
    simp only [upd_node, List.map_cons] at ih ⊢
    by_cases hex : e.1 = x
    · by_cases hix : id = x
      · have hei : e.1 = id := hex.trans hix.symm
        simp [find_node, hex, hix, hei]
      · have hei : ¬ e.1 = id := fun h => hix (h.symm.trans hex)
        have hxi : ¬ x = id := fun h => hix h.symm
        simp [find_node, hex, hix, hei, hxi]
    · by_cases hei : e.1 = id
      · have hix : ¬ id = x := fun h => hex (hei.trans h)
        simp [find_node, hex, hix, hei] at ih ⊢
        exact ih
      · by_cases hix : id = x <;> simp [find_node, hex, hix, hei] at ih ⊢ <;> exact ih

theorem find_node_upd_same (g : Graph) (id : primitive_id) (f : program_node → program_node) :
    find_node (upd_node g id f) id = (find_node g id).map f := by
  simp [find_node_upd]

theorem find_node_upd_ne (g : Graph) (id x : primitive_id) (f : program_node → program_node)
    (h : id ≠ x) : find_node (upd_node g id f) x = find_node g x := by
  simp [find_node_upd, h]

theorem find_node_mem (g : Graph) (id : primitive_id) (n : program_node)
    (h : find_node g id = some n) : (id, n) ∈ g := by
  induction g with
  | nil => simp [find_node] at h
  | cons e rest ih =>
    by_cases he : e.1 = id
    · simp [find_node, he] at h
      have hen : (id, n) = (e.1, e.2) := by rw [he, h]
      rw [hen, Prod.mk.eta]
      exact List.mem_cons_self _ _
    · simp [find_node, he] at h
      exact List.mem_cons_of_mem _ (ih h)

theorem find_node_eq_none (g : Graph) (id : primitive_id) :
    find_node g id = none ↔ id ∉ keys g := by
  induction g with
  | nil => simp [find_node, keys]
  | cons e rest ih =>
    by_cases he : e.1 = id
    · simp [find_node, keys, he]
    · simp [find_node, keys, he, ih]
      intro h
      exact fun hh => he hh.symm

theorem find_add_connection_prev (g : Graph) (prev nxt : primitive_id) (hne : prev ≠ nxt)
    (np : program_node) (h : find_node g prev = some np) :
    find_node (add_connection g prev nxt) prev = some { np with users := np.users ++ [nxt] } := by
  unfold add_connection
  rw [find_node_upd_ne _ _ _ _ (fun hh => hne hh.symm), find_node_upd_same, h]
  rfl

theorem find_add_connection_nxt (g : Graph) (prev nxt : primitive_id) (hne : prev ≠ nxt)
    (nn : program_node) (h : find_node g nxt = some nn) :
    find_node (add_connection g prev nxt) nxt =
      some { nn with dependencies := nn.dependencies ++ [prev] } := by
  unfold add_connection
  rw [find_node_upd_same, find_node_upd_ne _ _ _ _ hne, h]
  rfl

theorem find_add_connection_other (g : Graph) (prev nxt x : primitive_id)
    (hp : x ≠ prev) (hn : x ≠ nxt) :
    find_node (add_connection g prev nxt) x = find_node g x := by
  unfold add_connection
  rw [find_node_upd_ne _ _ _ _ (fun hh => hn hh.symm),
    find_node_upd_ne _ _ _ _ (fun hh => hp hh.symm)]

theorem find_remove_connection_prev (g : Graph) (prev nxt : primitive_id) (hne : prev ≠ nxt)
    (np : program_node) (h : find_node g prev = some np) :
    find_node (remove_connection g prev nxt) prev =
      some { np with users := np.users.filter (fun u => u ≠ nxt) } := by
  unfold remove_connection
  rw [find_node_upd_ne _ _ _ _ (fun hh => hne hh.symm), find_node_upd_same, h]
  rfl

theorem find_remove_connection_nxt (g : Graph) (prev nxt : primitive_id) (hne : prev ≠ nxt)
    (nn : program_node) (h : find_node g nxt = some nn) :
    find_node (remove_connection g prev nxt) nxt =
      some { nn with dependencies := nn.dependencies.filter (fun d => d ≠ prev) } := by
  unfold remove_connection
  rw [find_node_upd_same, find_node_upd_ne _ _ _ _ hne, h]
  rfl

theorem find_remove_connection_other (g : Graph) (prev nxt x : primitive_id)
    (hp : x ≠ prev) (hn : x ≠ nxt) :
    find_node (remove_connection g prev nxt) x = find_node g x := by
  unfold remove_connection
  rw [find_node_upd_ne _ _ _ _ (fun hh => hn hh.symm),
    find_node_upd_ne _ _ _ _ (fun hh => hp hh.symm)]

/-- `add_connection` as a single map over the store (for `prev ≠ nxt`). -/
theorem add_connection_eq_map (g : Graph) (prev nxt : primitive_id) (hne : prev ≠ nxt) :
    add_connection g prev nxt = g.map (fun e =>
      (e.1, { dependencies := e.2.dependencies ++ (if e.1 = nxt then [prev] else []),
              users := e.2.users ++ (if e.1 = prev then [nxt] else []),
              is_output := e.2.is_output, is_input := e.2.is_input })) := by
  unfold add_connection upd_node
  rw [List.map_map]
  congr 1
  funext e
  have hne2 : ¬ nxt = prev := fun h => hne h.symm
  by_cases hp : e.1 = prev
  · have hn : ¬ e.1 = nxt := fun h => hne (hp.symm.trans h)
    simp [Function.comp, hp, hn, hne]
  · by_cases hn : e.1 = nxt
    · simp [Function.comp, hp, hn, hne2]
    · simp [Function.comp, hp, hn]

/-- `remove_connection` as a single map over the store (for `prev ≠ nxt`). -/
theorem remove_connection_eq_map (g : Graph) (prev nxt : primitive_id) (hne : prev ≠ nxt) :
    remove_connection g prev nxt = g.map (fun e =>
      (e.1, { dependencies := if e.1 = nxt then e.2.dependencies.filter (fun d => d ≠ prev)
                              else e.2.dependencies,
              users := if e.1 = prev then e.2.users.filter (fun u => u ≠ nxt) else e.2.users,
              is_output := e.2.is_output, is_input := e.2.is_input })) := by
  unfold remove_connection upd_node
  rw [List.map_map]
  congr 1
  funext e
  have hne2 : ¬ nxt = prev := fun h => hne h.symm
  by_cases hp : e.1 = prev
  · have hn : ¬ e.1 = nxt := fun h => hne (hp.symm.trans h)
    simp [Function.comp, hp, hn, hne]
  · by_cases hn : e.1 = nxt
    · simp [Function.comp, hp, hn, hne2]
    · simp [Function.comp, hp, hn]

theorem mirror_inv_add_connection (g : Graph) (prev nxt : primitive_id) (hne : prev ≠ nxt)
    (hm : mirror_inv g) : mirror_inv (add_connection g prev nxt) := by
  rw [add_connection_eq_map g prev nxt hne]
  intro e1 h1 e2 h2
  simp only [List.mem_map] at h1 h2
  obtain ⟨a, ha, rfl⟩ := h1
  obtain ⟨b, hb, rfl⟩ := h2
  have hbase := hm a ha b hb
  by_cases h1 : a.1 = nxt
  · by_cases h2 : b.1 = prev
    · simp [List.mem_append, h1, h2]
    · simp [List.mem_append, h1, h2, hbase]
  · by_cases h2 : b.1 = prev
    · rw [h2] at hbase
      simp [List.mem_append, h1, h2, hbase]
    · simp [List.mem_append, h1, h2, hbase]

theorem mirror_inv_remove_connection (g : Graph) (prev nxt : primitive_id) (hne : prev ≠ nxt)
    (hm : mirror_inv g) : mirror_inv (remove_connection g prev nxt) := by
  rw [remove_connection_eq_map g prev nxt hne]
  intro e1 h1 e2 h2
  simp only [List.mem_map] at h1 h2
  obtain ⟨a, ha, rfl⟩ := h1
  obtain ⟨b, hb, rfl⟩ := h2
  have hbase := hm a ha b hb
  by_cases h1 : a.1 = nxt
  · by_cases h2 : b.1 = prev
    · simp [List.mem_filter, h1, h2]
    · simp [List.mem_filter, h1, h2, hbase]
  · by_cases h2 : b.1 = prev
    · rw [h2] at hbase
      simp [List.mem_filter, h1, h2, hbase]
    · simp [List.mem_filter, h1, h2, hbase]

/-- C1: for distinct `prev` and `nxt`, `add_connection` puts `prev` into
`nxt`'s dependency list and `nxt` into `prev`'s user list,
`remove_connection` removes `prev` from `nxt`'s dependency list and
`nxt` from `prev`'s user list, and both operations preserve the mirror
invariant. -/
theorem C1_connection_mirror (g : Graph) (prev nxt : primitive_id) (hne : prev ≠ nxt) :
    (∀ np, find_node g prev = some np →
      ∃ np2, find_node (add_connection g prev nxt) prev = some np2 ∧ nxt ∈ np2.users) ∧
    (∀ nn, find_node g nxt = some nn →
      ∃ nn2, find_node (add_connection g prev nxt) nxt = some nn2 ∧ prev ∈ nn2.dependencies) ∧
    (∀ np, find_node g prev = some np →
      ∃ np2, find_node (remove_connection g prev nxt) prev = some np2 ∧ nxt ∉ np2.users) ∧
    (∀ nn, find_node g nxt = some nn →
      ∃ nn2, find_node (remove_connection g prev nxt) nxt = some nn2 ∧
        prev ∉ nn2.dependencies) ∧
    (mirror_inv g → mirror_inv (add_connection g prev nxt)) ∧
    (mirror_inv g → mirror_inv (remove_connection g prev nxt)) := by
  refine ⟨fun np h => ⟨_, find_add_connection_prev g prev nxt hne np h, ?_⟩,
    fun nn h => ⟨_, find_add_connection_nxt g prev nxt hne nn h, ?_⟩,
    fun np h => ⟨_, find_remove_connection_prev g prev nxt hne np h, ?_⟩,
    fun nn h => ⟨_, find_remove_connection_nxt g prev nxt hne nn h, ?_⟩,
    mirror_inv_add_connection g prev nxt hne,
    mirror_inv_remove_connection g prev nxt hne⟩
  · simp
  · simp
  · simp [List.mem_filter]
  · simp [List.mem_filter]

/-- Witness for C1 on the concrete store `gW`. -/
theorem C1_connection_mirror_witness :
    ("b" : primitive_id) ≠ "a" ∧
    (mirror_inv gW → mirror_inv (add_connection gW "b" "a")) :=
  ⟨by decide, (C1_connection_mirror gW "b" "a" (by decide)).2.2.2.2.1⟩

/-- C9: `add_connection g prev nxt` (for distinct nodes) appends `nxt`
at the end of `prev`'s user list and `prev` at the end of `nxt`'s
dependency list, leaving all pre-existing entries of those lists (and
the other fields of those nodes) intact, and leaving every other node's
entry unchanged. -/
theorem C9_add_connection_frame (g : Graph) (prev nxt : primitive_id) (hne : prev ≠ nxt) :
    (∀ np, find_node g prev = some np →
      find_node (add_connection g prev nxt) prev =
        some { np with users := np.users ++ [nxt] }) ∧
    (∀ nn, find_node g nxt = some nn →
      find_node (add_connection g prev nxt) nxt =
        some { nn with dependencies := nn.dependencies ++ [prev] }) ∧
    (∀ x, x ≠ prev → x ≠ nxt → find_node (add_connection g prev nxt) x = find_node g x) :=
  ⟨fun np h => find_add_connection_prev g prev nxt hne np h,
   fun nn h => find_add_connection_nxt g prev nxt hne nn h,
   fun x hp hn => find_add_connection_other g prev nxt x hp hn⟩

/-- Witness for C9 on the concrete store `gW`. -/
theorem C9_add_connection_frame_witness :
    ("b" : primitive_id) ≠ "a" ∧
    find_node gW "b" = some (⟨["a"], [], true, false⟩ : program_node) ∧
    find_node (add_connection gW "b" "a") "b" =
      some (⟨["a"], [] ++ ["a"], true, false⟩ : program_node) :=
  ⟨by decide, by decide,
    (C9_add_connection_frame gW "b" "a" (by decide)).1
      (⟨["a"], [], true, false⟩ : program_node) (by decide)⟩

theorem count_filter_self (l : List primitive_id) (a : primitive_id) :
    (l.filter (fun x => x ≠ a)).count a = 0 :=
  List.count_eq_zero.mpr (by simp [List.mem_filter])

theorem count_filter_other (l : List primitive_id) (a b : primitive_id) (h : ¬ b = a) :
    (l.filter (fun x => x ≠ a)).count b = l.count b :=
  List.count_filter (by simp [h])

theorem edge_count_inv_add_connection (g : Graph) (prev nxt : primitive_id)
    (hne : prev ≠ nxt) (hm : edge_count_inv g) :
    edge_count_inv (add_connection g prev nxt) := by
  rw [add_connection_eq_map g prev nxt hne]
  intro e1 h1e e2 h2e
  simp only [List.mem_map] at h1e h2e
  obtain ⟨a, ha, rfl⟩ := h1e
  obtain ⟨b, hb, rfl⟩ := h2e
  have hbase := hm a ha b hb
  by_cases h1 : a.1 = nxt
  · by_cases h2 : b.1 = prev
    · rw [h1, h2] at hbase
      simp [h1, h2, List.count_singleton_self, hbase]
    · have hh : ¬ prev = b.1 := fun h => h2 h.symm
      rw [h1] at hbase
      simp [h1, h2, List.count_singleton, hh, hbase]
  · by_cases h2 : b.1 = prev
    · have hh : ¬ nxt = a.1 := fun h => h1 h.symm
      rw [h2] at hbase
      simp [h1, h2, List.count_singleton, hh, hbase]
    · simp [h1, h2, hbase]

theorem edge_count_inv_remove_connection (g : Graph) (prev nxt : primitive_id)
    (hne : prev ≠ nxt) (hm : edge_count_inv g) :
    edge_count_inv (remove_connection g prev nxt) := by
  rw [remove_connection_eq_map g prev nxt hne]
  intro e1 h1e e2 h2e
  simp only [List.mem_map] at h1e h2e
  obtain ⟨a, ha, rfl⟩ := h1e
  obtain ⟨b, hb, rfl⟩ := h2e
  have hbase := hm a ha b hb
  by_cases h1 : a.1 = nxt
  · by_cases h2 : b.1 = prev
    · rw [h1, h2, if_pos rfl, if_pos rfl, count_filter_self, count_filter_self]
    · rw [h1] at hbase
      rw [h1, if_pos rfl, if_neg h2, count_filter_other _ _ _ h2]
      exact hbase
  · by_cases h2 : b.1 = prev
    · rw [h2] at hbase
      rw [h2, if_neg h1, if_pos rfl, count_filter_other _ _ _ h1]
      exact hbase
    · rw [if_neg h1, if_neg h2]
      exact hbase

/-- C8: `add_connection` performs no deduplication — adding the same
edge twice yields count 2 on both sides — and one `remove_connection`
erases every occurrence on both sides; both operations preserve the
equality of the dependency-side and user-side edge multisets. -/
theorem C8_connection_multiset (g : Graph) (prev nxt : primitive_id) (hne : prev ≠ nxt) :
    (∀ np nn, find_node g prev = some np → find_node g nxt = some nn →
      (∃ np2, find_node (add_connection (add_connection g prev nxt) prev nxt) prev = some np2 ∧
        np2.users.count nxt = np.users.count nxt + 2) ∧
      (∃ nn2, find_node (add_connection (add_connection g prev nxt) prev nxt) nxt = some nn2 ∧
        nn2.dependencies.count prev = nn.dependencies.count prev + 2) ∧
      (∃ np3, find_node (remove_connection (add_connection (add_connection g prev nxt) prev nxt)
          prev nxt) prev = some np3 ∧ np3.users.count nxt = 0) ∧
      (∃ nn3, find_node (remove_connection (add_connection (add_connection g prev nxt) prev nxt)
          prev nxt) nxt = some nn3 ∧ nn3.dependencies.count prev = 0)) ∧
    (edge_count_inv g → edge_count_inv (add_connection g prev nxt)) ∧
    (edge_count_inv g → edge_count_inv (remove_connection g prev nxt)) := by
  refine ⟨fun np nn hp hn => ?_, edge_count_inv_add_connection g prev nxt hne,
    edge_count_inv_remove_connection g prev nxt hne⟩
  have h1p := find_add_connection_prev g prev nxt hne np hp
  have h1n := find_add_connection_nxt g prev nxt hne nn hn
  have h2p := find_add_connection_prev _ prev nxt hne _ h1p
  have h2n := find_add_connection_nxt _ prev nxt hne _ h1n
  have h3p := find_remove_connection_prev _ prev nxt hne _ h2p
  have h3n := find_remove_connection_nxt _ prev nxt hne _ h2n
  refine ⟨⟨_, h2p, ?_⟩, ⟨_, h2n, ?_⟩, ⟨_, h3p, ?_⟩, ⟨_, h3n, ?_⟩⟩
  · simp [List.count_append, List.count_singleton_self]
  · simp [List.count_append, List.count_singleton_self]
  · exact count_filter_self _ _
  · exact count_filter_self _ _

/-- Witness for C8 on the concrete store `gW`. -/
theorem C8_connection_multiset_witness :
    ("b" : primitive_id) ≠ "a" ∧
    find_node gW "b" = some nbW ∧ find_node gW "a" = some naW ∧
    (∃ np2, find_node (add_connection (add_connection gW "b" "a") "b" "a") "b" = some np2 ∧
      np2.users.count "a" = nbW.users.count "a" + 2) :=
  ⟨by decide, by decide, by decide,
    (((C8_connection_multiset gW "b" "a" (by decide)).1 nbW naW (by decide) (by decide)).1)⟩

/-- C6: for every identifier that was never registered in the store,
`get_node` fails with the "not found" error naming the missing primitive
node, and the map (with every node it contains) is returned unchanged. -/
theorem C6_get_node_not_found (g : Graph) (id : primitive_id)
    (h : id ∉ keys g) :
    get_node g id = (Except.error (not_found_msg id), g) := by
  have hf : find_node g id = none := (find_node_eq_none g id).mpr h
  simp [get_node, hf]

/-- Witness for C6 on a concrete store. -/
theorem C6_get_node_not_found_witness :
    "z" ∉ keys [("a", (⟨[], ["b"], false, true⟩ : program_node)),
                ("b", (⟨["a"], [], true, false⟩ : program_node))] ∧
    get_node [("a", (⟨[], ["b"], false, true⟩ : program_node)),
              ("b", (⟨["a"], [], true, false⟩ : program_node))] "z" =
      (Except.error (not_found_msg "z"),
       [("a", (⟨[], ["b"], false, true⟩ : program_node)),
        ("b", (⟨["a"], [], true, false⟩ : program_node))]) :=
  ⟨by decide, C6_get_node_not_found _ "z" (by decide)⟩

/-- C7: calling `add_intermediate` with an index that is out of range
for `nxt`'s current dependency count fails and modifies no edge: the
returned store is the original one, so every node's dependency and user
lists are unchanged. -/
theorem C7_add_intermediate_out_of_range (g : Graph) (node_id nxt : primitive_id)
    (prev_idx : Nat) (connect_old : Bool) (nn : program_node)
    (h : find_node g nxt = some nn) (hge : nn.dependencies.length ≤ prev_idx) :
    add_intermediate g node_id nxt prev_idx connect_old = (Except.error "Index out of range", g) ∧
    ∀ x, find_node (add_intermediate g node_id nxt prev_idx connect_old).2 x = find_node g x := by
  have hlt : ¬ prev_idx < nn.dependencies.length := by omega
  constructor
  · simp [add_intermediate, h, hlt]
  · intro x
    simp [add_intermediate, h, hlt]

/-- Witness for C7 on the concrete store `gW` (node `b` has one
dependency, index 5 is out of range). -/
theorem C7_add_intermediate_out_of_range_witness :
    find_node gW "b" = some nbW ∧ nbW.dependencies.length ≤ 5 ∧
    add_intermediate gW "c" "b" 5 true = (Except.error "Index out of range", gW) :=
  ⟨by decide, by decide,
    (C7_add_intermediate_out_of_range gW "c" "b" 5 true nbW (by decide) (by decide)).1⟩

/-- C10: the convenience overload of `add_intermediate` is equivalent to
calling `get_or_create` and then the node overload with the old
dependency reconnected (`connect_int_node_with_old_dep = true`): both
produce the same result and in particular the same store. -/
theorem C10_add_intermediate_prim_equiv (g : Graph) (prim : primitive)
    (nxt : primitive_id) (prev_idx : Nat) :
    add_intermediate_prim g prim nxt prev_idx = add_intermediate_prim_spec g prim nxt prev_idx ∧
    (add_intermediate_prim g prim nxt prev_idx).2 =
      (add_intermediate_prim_spec g prim nxt prev_idx).2 :=
  ⟨rfl, rfl⟩

theorem find_node_map_keyed (g : Graph) (f : primitive_id → program_node → program_node)
    (x : primitive_id) :
    find_node (g.map (fun e => (e.1, f e.1 e.2))) x = (find_node g x).map (f x) := by
  induction g with
  | nil => rfl
  | cons e rest ih =>
    by_cases he : e.1 = x
    · simp [find_node, he]
    · simp [find_node, he, ih]

theorem find_node_filter_ne (g : Graph) (id x : primitive_id) :
    find_node (g.filter (fun e => e.1 ≠ id)) x = if x = id then none else find_node g x := by
  induction g with
  | nil => by_cases h : x = id <;> simp [find_node, h]
  | cons e rest ih =>
    rw [List.filter_cons]
    by_cases hei : e.1 = id
    · rw [if_neg (by simp [hei]), ih]
      by_cases hx : x = id
      · simp [hx]
      · have hex : ¬ e.1 = x := fun h => hx (h.symm.trans hei)
        simp [find_node, hx, hex]
    · rw [if_pos (by simp [hei])]
      by_cases hex : e.1 = x
      · have hx : ¬ x = id := fun h => hei (hex.trans h)
        simp [find_node, hex, hx]
      · simp only [find_node]
        rw [if_neg hex, if_neg hex, ih]

/-- C5: `extract_and_remove` returns false and leaves the store
untouched whenever the node is an output or does not have exactly one
dependency; when the preconditions hold it returns true, erases the
node, and splices the single dependency `d` into each former user's
dependency list in place of the removed node, transferring the former
users to `d`'s user list. -/
theorem C5_extract_and_remove (g : Graph) (id : primitive_id) (hm : mirror_inv g) :
    (∀ n, find_node g id = some n → (n.is_output = true ∨ n.dependencies.length ≠ 1) →
      extract_and_remove g id = (false, g)) ∧
    (∀ n d, find_node g id = some n → n.is_output = false → n.dependencies = [d] → d ≠ id →
      (extract_and_remove g id).1 = true ∧
      find_node (extract_and_remove g id).2 id = none ∧
      (∀ u nu, u ∈ n.users → u ≠ id → u ≠ d → find_node g u = some nu →
        find_node (extract_and_remove g id).2 u =
          some { nu with
            dependencies := nu.dependencies.map (fun x => if x = id then d else x) } ∧
        d ∈ nu.dependencies.map (fun x => if x = id then d else x)) ∧
      (∀ nd, find_node g d = some nd →
        find_node (extract_and_remove g id).2 d =
          some { dependencies := nd.dependencies.map (fun x => if x = id then d else x),
                 users := nd.users.filter (fun u => u ≠ id) ++ n.users,
                 is_output := nd.is_output, is_input := nd.is_input })) := by
  constructor
  · intro n hfind hbad
    obtain ⟨deps, us, io, ii⟩ := n
    simp only [extract_and_remove, hfind]
    rcases deps with _ | ⟨d, rest⟩
    · cases io <;> rfl
    · rcases rest with _ | ⟨d2, rest2⟩
      · cases io with
        | false => simp at hbad
        | true => rfl
      · cases io <;> rfl
  · intro n d hfind ho hdeps hdi
    obtain ⟨deps, us, io, ii⟩ := n
    have hdeps2 : deps = [d] := hdeps
    have ho2 : io = false := ho
    subst hdeps2
    subst ho2
    have hre : extract_and_remove g id =
        (true, (g.map (fun e =>
          (e.1, splice_node id d (⟨[d], us, false, ii⟩ : program_node).users e.1 e.2))).filter
            (fun e => e.1 ≠ id)) := by
      unfold extract_and_remove
      rw [hfind]
    refine ⟨by simp only [hre], ?_, ?_, ?_⟩
    · simp only [hre]
      rw [find_node_filter_ne, if_pos rfl]
    · intro u nu hu hui hud hfu
      have hid_dep : id ∈ nu.dependencies := by
        have h2 := hm (u, nu) (find_node_mem g u nu hfu)
          ((id, ⟨[d], us, false, ii⟩) : primitive_id × program_node)
          (find_node_mem g id _ hfind)
        exact h2.mpr hu
      constructor
      · simp only [hre]
        rw [find_node_filter_ne, if_neg hui, find_node_map_keyed, hfu]
        simp [splice_node, hud]
      · exact List.mem_map.mpr ⟨id, hid_dep, by simp⟩
    · intro nd hfd
      simp only [hre]
      rw [find_node_filter_ne, if_neg hdi, find_node_map_keyed, hfd]
      simp [splice_node]

/-- Witness for C5: in `gW`, node `b` is an output, so the call fails
and the store is unchanged. -/
theorem C5_extract_and_remove_witness :
    mirror_inv gW ∧ find_node gW "b" = some nbW ∧
    (nbW.is_output = true ∨ nbW.dependencies.length ≠ 1) ∧
    extract_and_remove gW "b" = (false, gW) :=
  ⟨by decide, by decide, by decide,
    (C5_extract_and_remove gW "b" (by decide)).1 nbW (by decide) (by decide)⟩

theorem find_node_upd_none (g : Graph) (id : primitive_id) (f : program_node → program_node)
    (x : primitive_id) (h : find_node g x = none) : find_node (upd_node g id f) x = none := by
  rw [find_node_upd]
  by_cases hix : id = x
  · subst hix
    simp [h]
  · simp [hix, h]

theorem find_remove_connection_none (g : Graph) (prev nxt x : primitive_id)
    (h : find_node g x = none) : find_node (remove_connection g prev nxt) x = none := by
  unfold remove_connection
  exact find_node_upd_none _ _ _ _ (find_node_upd_none _ _ _ _ h)

theorem find_fold_remove_none (L : List primitive_id) (id x : primitive_id) :
    ∀ g : Graph, find_node g x = none →
      find_node (L.foldl (fun gg d => remove_connection gg d id) g) x = none := by
  induction L with
  | nil => exact fun g h => h
  | cons d L ih =>
    intro g h
    exact ih _ (find_remove_connection_none g d id x h)

theorem find_fold_remove_other (L : List primitive_id) (id x : primitive_id) (hx : x ≠ id) :
    ∀ g : Graph, x ∉ L →
      find_node (L.foldl (fun gg d => remove_connection gg d id) g) x = find_node g x := by
  induction L with
  | nil => exact fun g _ => rfl
  | cons d L ih =>
    intro g hL
    have hxd : x ≠ d := fun h => hL (h ▸ List.mem_cons_self d L)
    rw [List.foldl_cons, ih _ (fun h => hL (List.mem_cons_of_mem d h))]
    exact find_remove_connection_other g d id x hxd hx

theorem filter_ne_idem (l : List primitive_id) (a : primitive_id) :
    (l.filter (fun x => x ≠ a)).filter (fun x => x ≠ a) = l.filter (fun x => x ≠ a) := by
  induction l with
  | nil => rfl
  | cons x xs ih =>
    rw [List.filter_cons]
    by_cases h : x = a
    · rw [if_neg (by simp [h])]
      exact ih
    · rw [if_pos (by simp [h]), List.filter_cons, if_pos (by simp [h]), ih]

theorem find_fold_remove_mem (L : List primitive_id) (id x : primitive_id) (hx : x ≠ id) :
    ∀ (g : Graph) (nx : program_node), x ∈ L → find_node g x = some nx →
      find_node (L.foldl (fun gg d => remove_connection gg d id) g) x =
        some { nx with users := nx.users.filter (fun u => u ≠ id) } := by
  induction L with
  | nil =>
    intro g nx hL _
    exact absurd hL (List.not_mem_nil x)
  | cons d L ih =>
    intro g nx hL hf
    rw [List.foldl_cons]
    by_cases hxd : x = d
    · subst hxd
      have h2 : find_node (remove_connection g x id) x =
          some { nx with users := nx.users.filter (fun u => u ≠ id) } :=
        find_remove_connection_prev g x id hx nx hf
      by_cases hL2 : x ∈ L
      · rw [ih (remove_connection g x id) _ hL2 h2, filter_ne_idem]
      · rw [find_fold_remove_other L id x hx _ hL2, h2]
    · have hL2 : x ∈ L := by
        rcases List.mem_cons.mp hL with h | h
        · exact absurd h hxd
        · exact h
      exact ih _ _ hL2 ((find_remove_connection_other g d id x hxd hx).trans hf)

/-- C4: `remove_if_dangling` removes the node exactly when it has no
users and is not marked output or input (returning whether removal
occurred), and when it returns true the node is gone from the store and
appears in no remaining node's dependency or user list. -/
theorem C4_remove_if_dangling (g : Graph) (id : primitive_id) (hm : mirror_inv g) :
    ((remove_if_dangling g id).1 = true ↔
      ∃ n, find_node g id = some n ∧ n.users = [] ∧
        n.is_output = false ∧ n.is_input = false) ∧
    ((remove_if_dangling g id).1 = true →
      find_node (remove_if_dangling g id).2 id = none ∧
      ∀ x nx, find_node (remove_if_dangling g id).2 x = some nx →
        id ∉ nx.dependencies ∧ id ∉ nx.users) := by
  rcases hfind : find_node g id with _ | n
  · have hr : remove_if_dangling g id = (false, g) := by
      simp [remove_if_dangling, hfind]
    refine ⟨⟨fun h => by simp [hr] at h, fun h => ?_⟩, fun h => by simp [hr] at h⟩
    obtain ⟨n2, hf2, _⟩ := h
    cases hf2
  · by_cases hcond : n.users = [] ∧ n.is_output = false ∧ n.is_input = false
    · obtain ⟨hu, ho, hi⟩ := hcond
      have hr : remove_if_dangling g id =
          (true, ((n.dependencies.foldl (fun gg d => remove_connection gg d id) g).filter
            (fun e => e.1 ≠ id))) := by
        simp [remove_if_dangling, hfind, hu, ho, hi]
      refine ⟨⟨fun _ => ⟨n, rfl, hu, ho, hi⟩, fun _ => by rw [hr]⟩, fun _ => ⟨?_, ?_⟩⟩
      · simp only [hr]
        rw [find_node_filter_ne, if_pos rfl]
      · intro x nx hxf
        simp only [hr] at hxf
        rw [find_node_filter_ne] at hxf
        by_cases hxid : x = id
        · rw [if_pos hxid] at hxf
          cases hxf
        · rw [if_neg hxid] at hxf
          rcases hgx : find_node g x with _ | nx0
          · rw [find_fold_remove_none n.dependencies id x g hgx] at hxf
            cases hxf
          · have hmir1 := hm (x, nx0) (find_node_mem g x nx0 hgx)
              (id, n) (find_node_mem g id n hfind)
            have hmir2 := hm (id, n) (find_node_mem g id n hfind)
              (x, nx0) (find_node_mem g x nx0 hgx)
            by_cases hdep : x ∈ n.dependencies
            · rw [find_fold_remove_mem n.dependencies id x hxid g nx0 hdep hgx] at hxf
              obtain rfl := Option.some.inj hxf
              constructor
              · intro hid
                have := hmir1.mp hid
                rw [hu] at this
                cases this
              · simp [List.mem_filter]
            · rw [find_fold_remove_other n.dependencies id x hxid g hdep, hgx] at hxf
              obtain rfl := Option.some.inj hxf
              constructor
              · intro hid
                have := hmir1.mp hid
                rw [hu] at this
                cases this
              · intro hid
                exact hdep (hmir2.mpr hid)
    · have hb2 : ¬ ((n.users.isEmpty && !n.is_output && !n.is_input) = true) := by
        intro h
        simp [List.isEmpty_iff] at h
        exact hcond ⟨h.1.1, h.1.2, h.2⟩
      have hr : remove_if_dangling g id = (false, g) := by
        simp only [remove_if_dangling, hfind]
        rw [if_neg hb2]
      refine ⟨⟨fun h => by simp [hr] at h, fun h => ?_⟩, fun h => by simp [hr] at h⟩
      obtain ⟨n2, hf2, h1, h2, h3⟩ := h
      obtain rfl := Option.some.inj hf2
      exact absurd ⟨h1, h2, h3⟩ hcond

/-- Witness for C4: in the store `gWd`, node `c` has no users and no
flags, so it is removed. -/
theorem C4_remove_if_dangling_witness :
    mirror_inv gWd ∧ (remove_if_dangling gWd "c").1 = true :=
  ⟨by decide, ((C4_remove_if_dangling gWd "c" (by decide)).1).mpr
    ⟨⟨["a"], [], false, false⟩, by decide, rfl, rfl, rfl⟩⟩

theorem mem_all_pairs (l : List primitive_id) (a b : primitive_id) :
    (a, b) ∈ all_pairs l ↔ a ∈ l ∧ b ∈ l := by
  simp [all_pairs]

theorem ranges_overlap_symm (r1 r2 : Nat × Nat) :
    ranges_overlap r1 r2 = ranges_overlap r2 r1 := by
  unfold ranges_overlap
  exact Bool.and_comm _ _

theorem basic_pairs_symm (g : Graph) (ord : List primitive_id) (a b : primitive_id)
    (h : (a, b) ∈ (all_pairs (keys g)).filter
      (fun p => p.1 ≠ p.2 && ranges_overlap (live_range g ord p.1) (live_range g ord p.2))) :
    (b, a) ∈ (all_pairs (keys g)).filter
      (fun p => p.1 ≠ p.2 && ranges_overlap (live_range g ord p.1) (live_range g ord p.2)) := by
  rw [List.mem_filter] at h ⊢
  obtain ⟨hmem, hpred⟩ := h
  simp only [Bool.and_eq_true, decide_eq_true_eq] at hpred
  refine ⟨?_, ?_⟩
  · rw [mem_all_pairs] at hmem ⊢
    exact ⟨hmem.2, hmem.1⟩
  · simp only [Bool.and_eq_true, decide_eq_true_eq]
    exact ⟨fun hh => hpred.1 hh.symm, (ranges_overlap_symm _ _).trans hpred.2⟩

theorem oooq_pairs_symm (g : Graph) (a b : primitive_id)
    (h : (a, b) ∈ (all_pairs (keys g)).filter
      (fun p => p.1 ≠ p.2 && !reaches g g.length p.1 p.2 && !reaches g g.length p.2 p.1)) :
    (b, a) ∈ (all_pairs (keys g)).filter
      (fun p => p.1 ≠ p.2 && !reaches g g.length p.1 p.2 && !reaches g g.length p.2 p.1) := by
  rw [List.mem_filter] at h ⊢
  obtain ⟨hmem, hpred⟩ := h
  simp only [Bool.and_eq_true, decide_eq_true_eq] at hpred
  refine ⟨?_, ?_⟩
  · rw [mem_all_pairs] at hmem ⊢
    exact ⟨hmem.2, hmem.1⟩
  · simp only [Bool.and_eq_true, decide_eq_true_eq]
    exact ⟨⟨fun hh => hpred.1.1 hh.symm, hpred.2⟩, hpred.1.2⟩

/-- C3: the MemoryDependencyGraph produced by composing the basic,
skipped-branch and oooq policies is symmetric, and, since every policy
only appends conflict entries, it contains every conflict that the
basic liveness policy alone would record. -/
theorem C3_memory_dependencies (g : Graph) (ord : List primitive_id)
    (markers : List (primitive_id × primitive_id)) :
    (∀ a b, conflicts (prepare_memory_dependencies g ord markers) a b →
      conflicts (prepare_memory_dependencies g ord markers) b a) ∧
    (∀ a b, conflicts (basic_memory_dependencies g ord []) a b →
      conflicts (prepare_memory_dependencies g ord markers) a b) := by
  constructor
  · intro a b hab
    unfold prepare_memory_dependencies oooq_memory_dependencies
      skipped_branch_memory_dependencies basic_memory_dependencies at hab ⊢
    simp only [List.nil_append, List.mem_append] at hab ⊢
    rcases hab with ((hb | (hmk | hsw)) | ho)
    · exact Or.inl (Or.inl (basic_pairs_symm g ord a b hb))
    · exact Or.inl (Or.inr (Or.inr (List.mem_map.mpr ⟨(a, b), hmk, rfl⟩)))
    · obtain ⟨p, hp, hpe⟩ := List.mem_map.mp hsw
      refine Or.inl (Or.inr (Or.inl ?_))
      have hpa : p = (b, a) := by
        obtain ⟨p1, p2⟩ := p
        simp [Prod.swap] at hpe
        simp [hpe.1, hpe.2]
      exact hpa ▸ hp
    · exact Or.inr (oooq_pairs_symm g a b ho)
  · intro a b hab
    unfold basic_memory_dependencies at hab
    simp only [List.nil_append] at hab
    unfold prepare_memory_dependencies oooq_memory_dependencies
      skipped_branch_memory_dependencies basic_memory_dependencies
    simp only [List.nil_append, List.mem_append]
    exact Or.inl (Or.inl hab)

/-- Witness for C3 on the concrete store `gW` with processing order
`a, b`: the basic policy records the live-range conflict between the
producer `a` and its consumer `b`, and the composed analysis retains
it. -/
theorem C3_memory_dependencies_witness :
    conflicts (basic_memory_dependencies gW ["a", "b"] []) "a" "b" ∧
    conflicts (prepare_memory_dependencies gW ["a", "b"] []) "a" "b" :=
  ⟨by decide, (C3_memory_dependencies gW ["a", "b"] []).2 "a" "b" (by decide)⟩

theorem find_node_of_mem (g : Graph) (hnd : (keys g).Nodup)
    (e : primitive_id × program_node) (he : e ∈ g) : find_node g e.1 = some e.2 := by
  induction g with
  | nil => cases he
  | cons x rest ih =>
    rcases List.mem_cons.mp he with rfl | he2
    · simp [find_node]
    · have hx1 : ¬ x.1 = e.1 := by
        intro hh
        have : e.1 ∈ keys rest := List.mem_map.mpr ⟨e, he2, rfl⟩
        rw [← hh] at this
        exact (List.nodup_cons.mp hnd).1 this
      simp only [find_node, hx1, if_false]
      exact ih (List.nodup_cons.mp hnd).2 he2

theorem keys_filter_ne (rem : Graph) (i : primitive_id) :
    keys (rem.filter (fun x => x.1 ≠ i)) = (keys rem).filter (fun x => x ≠ i) := by
  induction rem with
  | nil => rfl
  | cons e rest ih =>
    rw [List.filter_cons]
    by_cases h : e.1 = i
    · rw [if_neg (by simp [h])]
      simp only [keys, List.map_cons]
      rw [List.filter_cons, if_neg (by simp [h])]
      exact ih
    · rw [if_pos (by simp [h])]
      simp only [keys, List.map_cons]
      rw [List.filter_cons, if_pos (by simp [h])]
      simp only [keys] at ih
      rw [ih]

theorem nodup_filter_ne_perm (l : List primitive_id) (a : primitive_id)
    (hn : l.Nodup) (ha : a ∈ l) : l.Perm (a :: l.filter (fun x => x ≠ a)) := by
  induction l with
  | nil => cases ha
  | cons x xs ih =>
    rcases List.mem_cons.mp ha with rfl | ha2
    · rw [List.filter_cons, if_neg (by simp)]
      have hxs : xs.filter (fun y => y ≠ a) = xs := by
        apply List.filter_eq_self.mpr
        intro b hb
        simp only [decide_eq_true_eq]
        intro hbx
        exact (List.nodup_cons.mp hn).1 (hbx ▸ hb)
      rw [hxs]
    · have hxa : ¬ x = a := by
        intro hh
        exact (List.nodup_cons.mp hn).1 (hh ▸ ha2)
      rw [List.filter_cons, if_pos (by simp [hxa])]
      have h1 : (x :: xs).Perm (x :: (a :: xs.filter (fun y => y ≠ a))) :=
        List.Perm.cons x (ih (List.nodup_cons.mp hn).2 ha2)
      exact h1.trans (List.Perm.swap a x _)

theorem length_filter_ne_key (rem : Graph) (e : primitive_id × program_node)
    (hn : (keys rem).Nodup) (he : e ∈ rem) :
    (rem.filter (fun x => x.1 ≠ e.1)).length + 1 = rem.length := by
  induction rem with
  | nil => cases he
  | cons x rest ih =>
    by_cases hx : x.1 = e.1
    · rw [List.filter_cons, if_neg (by simp [hx])]
      have hrest : rest.filter (fun y => y.1 ≠ e.1) = rest := by
        apply List.filter_eq_self.mpr
        intro b hb
        simp only [decide_eq_true_eq]
        intro hbe
        have : x.1 ∈ keys rest := by
          rw [hx, ← hbe]
          exact List.mem_map.mpr ⟨b, hb, rfl⟩
        exact (List.nodup_cons.mp (by simpa [keys] using hn)).1 this
      rw [hrest]
      simp
    · have he2 : e ∈ rest := by
        rcases List.mem_cons.mp he with rfl | h2
        · exact absurd rfl hx
        · exact h2
      rw [List.filter_cons, if_pos (by simp [hx])]
      simp only [List.length_cons]
      rw [ih (List.nodup_cons.mp (by simpa [keys] using hn)).2 he2]

theorem emitted_ok_mid (g : Graph) (m1 : List primitive_id) :
    ∀ (acc m2 : List primitive_id) (a : primitive_id),
      emitted_ok g acc → acc = m1 ++ a :: m2 →
      ∀ n, find_node g a = some n → ∀ d ∈ n.dependencies, d ∈ m2 := by
  induction m1 with
  | nil =>
    intro acc m2 a hok heq n hf d hd
    subst heq
    exact hok.1 n hf d hd
  | cons x m1 ih =>
    intro acc m2 a hok heq n hf d hd
    subst heq
    exact ih _ m2 a hok.2 rfl n hf d hd

theorem emitted_ok_respects (g : Graph) (acc : List primitive_id)
    (hok : emitted_ok g acc) : respects_dependencies g acc.reverse := by
  intro l1 a l2 heq n hf d hd
  have hacc : acc = l2.reverse ++ a :: l1.reverse := by
    have := congrArg List.reverse heq
    rw [List.reverse_reverse] at this
    rw [this]
    simp
  have := emitted_ok_mid g l2.reverse acc l1.reverse a hok hacc n hf d hd
  exact List.mem_reverse.mp this

theorem indexOf_lt_of_mem_left (a b : primitive_id) : ∀ (s t : List primitive_id),
    (s ++ a :: t).Nodup → b ∈ s →
    (s ++ a :: t).indexOf b < (s ++ a :: t).indexOf a := by
  intro s
  induction s with
  | nil => intro t _ hb; cases hb
  | cons x s ih =>
    intro t hnd hb
    have hnd2 : (x :: (s ++ a :: t)).Nodup := hnd
    have hxa : x ≠ a := by
      intro hh
      have : a ∈ s ++ a :: t := List.mem_append.mpr (Or.inr (List.mem_cons_self a t))
      exact (List.nodup_cons.mp hnd2).1 (hh ▸ this)
    rcases List.mem_cons.mp hb with rfl | hb2
    · rw [List.cons_append, List.indexOf_cons_self]
      rw [List.indexOf_cons_ne _ hxa]
      exact Nat.succ_pos _
    · have hxb : x ≠ b := by
        intro hh
        have : b ∈ s ++ a :: t := List.mem_append.mpr (Or.inl hb2)
        exact (List.nodup_cons.mp hnd2).1 (hh ▸ this)
      rw [List.cons_append, List.indexOf_cons_ne _ hxb, List.indexOf_cons_ne _ hxa]
      exact Nat.succ_lt_succ (ih t (List.nodup_cons.mp hnd2).2 hb2)

theorem respects_no_cycle (g : Graph) (ord : List primitive_id)
    (hnd : ord.Nodup) (hperm : ord.Perm (keys g))
    (hr : respects_dependencies g ord) : ¬ has_cycle g := by
  have hlt : ∀ a b, depends_on g a b → ord.indexOf b < ord.indexOf a := by
    intro a b hab
    obtain ⟨n, hf, hb⟩ := hab
    have ha_keys : a ∈ keys g := List.mem_map.mpr ⟨(a, n), find_node_mem g a n hf, rfl⟩
    have ha_ord : a ∈ ord := (hperm.mem_iff).mpr ha_keys
    obtain ⟨s, t, heq⟩ := List.append_of_mem ha_ord
    have hbs : b ∈ s := hr s a t heq n hf b hb
    rw [heq] at hnd ⊢
    exact indexOf_lt_of_mem_left a b s t hnd hbs
  rintro ⟨a, hpath⟩
  have hmono : ∀ x y, Relation.TransGen (depends_on g) x y →
      ord.indexOf y < ord.indexOf x := by
    intro x y h
    induction h with
    | single h1 => exact hlt _ _ h1
    | tail _ h2 ih => exact lt_trans (hlt _ _ h2) ih
  exact absurd (hmono a a hpath) (lt_irrefl _)

theorem stuck_has_cycle (g : Graph) (S : List primitive_id) (hne : S ≠ [])
    (hstep : ∀ a ∈ S, ∃ b, b ∈ S ∧ depends_on g a b) : has_cycle g := by
  classical
  obtain ⟨x0, hx0⟩ := List.exists_mem_of_ne_nil S hne
  have hstep2 : ∀ p : {x // x ∈ S}, ∃ q : {x // x ∈ S}, depends_on g p.1 q.1 := by
    intro p
    obtain ⟨b, hb, hd⟩ := hstep p.1 p.2
    exact ⟨⟨b, hb⟩, hd⟩
  choose f hf using hstep2
  let F : Nat → {x // x ∈ S} := fun n => Nat.rec ⟨x0, hx0⟩ (fun _ p => f p) n
  have hFs : ∀ n, depends_on g (F n).1 (F (n + 1)).1 := fun n => hf (F n)
  have hchain : ∀ j i, i < j → Relation.TransGen (depends_on g) (F i).1 (F j).1 := by
    intro j
    induction j with
    | zero => intro i h; exact absurd h (Nat.not_lt_zero i)
    | succ j ihj =>
      intro i h
      rcases Nat.lt_succ_iff_lt_or_eq.mp h with h2 | h2
      · exact Relation.TransGen.tail (ihj i h2) (hFs j)
      · subst h2
        exact Relation.TransGen.single (hFs i)
  have hmap : ∀ n ∈ Finset.range (S.toFinset.card + 1), (fun k => (F k).1) n ∈ S.toFinset :=
    fun n _ => List.mem_toFinset.mpr (F n).2
  have hcard : S.toFinset.card < (Finset.range (S.toFinset.card + 1)).card := by
    rw [Finset.card_range]
    omega
  obtain ⟨i, _, j, _, hij, hfe⟩ :=
    Finset.exists_ne_map_eq_of_card_lt_of_maps_to hcard hmap
  rcases Nat.lt_or_ge i j with h | h
  · exact ⟨(F i).1, hfe ▸ hchain j i h⟩
  · have h2 : j < i := by omega
    exact ⟨(F j).1, hfe ▸ hchain i j h2⟩

theorem filter_step_perm (g : Graph) (rem : Graph) (acc : List primitive_id)
    (e : primitive_id × program_node) (hmem : e ∈ rem)
    (h2 : (keys rem ++ acc).Perm (keys g)) (h3 : (keys rem).Nodup) :
    (keys (rem.filter (fun x => x.1 ≠ e.1)) ++ (e.1 :: acc)).Perm (keys g) ∧
    (keys (rem.filter (fun x => x.1 ≠ e.1))).Nodup := by
  have hstep : (keys rem).Perm (e.1 :: keys (rem.filter (fun x => x.1 ≠ e.1))) := by
    rw [keys_filter_ne]
    exact nodup_filter_ne_perm (keys rem) e.1 h3 (List.mem_map.mpr ⟨e, hmem, rfl⟩)
  constructor
  · have h5 : (keys (rem.filter (fun x => x.1 ≠ e.1)) ++ (e.1 :: acc)).Perm
        ((e.1 :: keys (rem.filter (fun x => x.1 ≠ e.1))) ++ acc) := List.perm_middle
    exact h5.trans ((hstep.symm.append_right acc).trans h2)
  · rw [keys_filter_ne]
    exact h3.filter _

theorem topo_sort_aux_sound (g : Graph) :
    ∀ (fuel : Nat) (rem : Graph) (acc ord : List primitive_id),
      (∀ e ∈ rem, find_node g e.1 = some e.2) →
      (keys rem ++ acc).Perm (keys g) →
      (keys rem).Nodup →
      emitted_ok g acc →
      topo_sort_aux fuel rem acc = some ord →
      ord.Perm (keys g) ∧ emitted_ok g ord.reverse := by
  intro fuel
  induction fuel with
  | zero =>
    intro rem acc ord h1 h2 h3 h4 hres
    cases rem with
    | nil =>
      simp only [topo_sort_aux, Option.some.injEq] at hres
      subst hres
      rw [List.reverse_reverse]
      exact ⟨(List.reverse_perm acc).trans (by simpa using h2), h4⟩
    | cons e0 rest => simp [topo_sort_aux] at hres
  | succ fuel ih =>
    intro rem acc ord h1 h2 h3 h4 hres
    cases rem with
    | nil =>
      simp only [topo_sort_aux, Option.some.injEq] at hres
      subst hres
      rw [List.reverse_reverse]
      exact ⟨(List.reverse_perm acc).trans (by simpa using h2), h4⟩
    | cons e0 rest =>
      simp only [topo_sort_aux] at hres
      cases hfind : (e0 :: rest).find? (fun e => deps_satisfied acc e.2) with
      | none =>
        rw [hfind] at hres
        simp at hres
      | some e =>
        rw [hfind] at hres
        have hmem : e ∈ e0 :: rest := List.mem_of_find?_eq_some hfind
        have hpred0 := List.find?_some hfind
        have hpred : deps_satisfied acc e.2 = true := hpred0
        apply ih ((e0 :: rest).filter (fun x => x.1 ≠ e.1)) (e.1 :: acc) ord
        · intro x hx
          exact h1 x (List.mem_of_mem_filter hx)
        · exact (filter_step_perm g (e0 :: rest) acc e hmem h2 h3).1
        · exact (filter_step_perm g (e0 :: rest) acc e hmem h2 h3).2
        · refine ⟨?_, h4⟩
          intro n hf d hd
          have he2 : find_node g e.1 = some e.2 := h1 e hmem
          rw [hf] at he2
          obtain rfl := Option.some.inj he2
          simp only [deps_satisfied, List.all_eq_true] at hpred
          have := hpred d hd
          simpa [List.contains] using this
        · exact hres

theorem topo_sort_aux_complete (g : Graph)
    (hcl : ∀ e ∈ g, ∀ d ∈ e.2.dependencies, d ∈ keys g) :
    ∀ (fuel : Nat) (rem : Graph) (acc : List primitive_id),
      (∀ e ∈ rem, find_node g e.1 = some e.2) →
      (keys rem ++ acc).Perm (keys g) →
      (keys rem).Nodup →
      rem.length ≤ fuel →
      topo_sort_aux fuel rem acc = none →
      has_cycle g := by
  intro fuel
  induction fuel with
  | zero =>
    intro rem acc h1 h2 h3 hlen hres
    cases rem with
    | nil => simp [topo_sort_aux] at hres
    | cons e0 rest => simp at hlen
  | succ fuel ih =>
    intro rem acc h1 h2 h3 hlen hres
    cases rem with
    | nil => simp [topo_sort_aux] at hres
    | cons e0 rest =>
      simp only [topo_sort_aux] at hres
      cases hfind : (e0 :: rest).find? (fun e => deps_satisfied acc e.2) with
      | some e =>
        rw [hfind] at hres
        have hmem : e ∈ e0 :: rest := List.mem_of_find?_eq_some hfind
        refine ih ((e0 :: rest).filter (fun x => x.1 ≠ e.1)) (e.1 :: acc) ?_ ?_ ?_ ?_ hres
        · intro x hx
          exact h1 x (List.mem_of_mem_filter hx)
        · exact (filter_step_perm g (e0 :: rest) acc e hmem h2 h3).1
        · exact (filter_step_perm g (e0 :: rest) acc e hmem h2 h3).2
        · have := length_filter_ne_key (e0 :: rest) e h3 hmem
          simp only [List.length_cons] at hlen this
          omega
      | none =>
        rw [List.find?_eq_none] at hfind
        apply stuck_has_cycle g (keys (e0 :: rest))
        · simp [keys]
        · intro a ha
          obtain ⟨e, he, rfl⟩ := List.mem_map.mp ha
          have hnp := hfind e he
          have hex : ∃ d ∈ e.2.dependencies, d ∉ acc := by
            by_contra hno
            push_neg at hno
            apply hnp
            simp only [deps_satisfied, List.all_eq_true]
            intro d hd
            simpa [List.contains] using hno d hd
          obtain ⟨d, hd, hdacc⟩ := hex
          have hdg : d ∈ keys g :=
            hcl (e.1, e.2) (find_node_mem g e.1 e.2 (h1 e he)) d hd
          rcases List.mem_append.mp ((h2.mem_iff).mpr hdg) with h | h
          · exact ⟨d, h, ⟨e.2, h1 e he, hd⟩⟩
          · exact absurd h hdacc

/-- C2: for every well-formed acyclic store, `calc_processing_order`
produces an order that is a permutation of the node set in which every
node appears after all of its dependencies, and for every store with a
dependency cycle it fails (returns no order). -/
theorem C2_calc_processing_order (g : Graph) (hwf : well_formed g) :
    (¬ has_cycle g → ∃ ord, calc_processing_order g = some ord ∧
      ord.Perm (keys g) ∧ respects_dependencies g ord) ∧
    (has_cycle g → calc_processing_order g = none) := by
  obtain ⟨hnd, hcl⟩ := hwf
  have hinv1 : ∀ e ∈ g, find_node g e.1 = some e.2 := fun e he => find_node_of_mem g hnd e he
  have hinv2 : (keys g ++ ([] : List primitive_id)).Perm (keys g) := by simp
  constructor
  · intro hnc
    rcases hres : calc_processing_order g with _ | ord
    · exact absurd
        (topo_sort_aux_complete g hcl g.length g [] hinv1 hinv2 hnd (le_refl _) hres) hnc
    · obtain ⟨hperm, hok⟩ :=
        topo_sort_aux_sound g g.length g [] ord hinv1 hinv2 hnd True.intro hres
      refine ⟨ord, rfl, hperm, ?_⟩
      have hr := emitted_ok_respects g ord.reverse hok
      rwa [List.reverse_reverse] at hr
  · intro hc
    rcases hres : calc_processing_order g with _ | ord
    · rfl
    · exfalso
      obtain ⟨hperm, hok⟩ :=
        topo_sort_aux_sound g g.length g [] ord hinv1 hinv2 hnd True.intro hres
      have hresp : respects_dependencies g ord := by
        have hr := emitted_ok_respects g ord.reverse hok
        rwa [List.reverse_reverse] at hr
      exact absurd hc (respects_no_cycle g ord (hperm.nodup_iff.mpr hnd) hperm hresp)

/-- Witness for C2 on the concrete store `gW` (which is well-formed). -/
theorem C2_calc_processing_order_witness :
    well_formed gW ∧
    (¬ has_cycle gW → ∃ ord, calc_processing_order gW = some ord ∧
      ord.Perm (keys gW) ∧ respects_dependencies gW ord) ∧
    (has_cycle gW → calc_processing_order gW = none) :=
  ⟨by decide, C2_calc_processing_order gW (by decide)⟩

end cldnn

